import Mathlib

/-!
Verification of the transport/ingestion/fan-out subsystem of the
multithread-assessment repository, shallowly embedded in Lean 4.

The embedding translates the Python source:
  * `service/model/message.py`   — `Message`, `to_json`, `from_json`, `from_json_str`
  * `service/repository/repository.py` — the decorator sink chain, `CSVRepository`,
    `SQLRepository`
  * `utils/network.py`           — `ServerConnection.__read` (framing codec),
    `SMServerConnection.chop_json`, `SMClientConnection.send`,
    `ClientConnection.send`, `PipeClientConnection.send`

JSON serialisation is embedded at the level of the parsed dictionary: the
Python code calls `json.dumps(self.__dict__)` / `json.loads(j)`, and the
standard-library guarantee that `loads (dumps d) = d` for representable
dictionaries is taken as given, so an encoded message is modelled as the
association list of its four fields.  Byte strings are modelled as `List Char`
(the framing code only counts brace characters) or `List Nat` (raw payload
bytes in the shared-memory mailbox).
-/

/-- A JSON value as it can appear in a `Message` field: `null` (Python `None`,
the shutdown sentinel), a number, a string, or a sequence of numbers. -/
inductive JVal where
  | jnull : JVal
  | jnum : Int → JVal
  | jstr : String → JVal
  | jlist : List Int → JVal
deriving DecidableEq, Repr

/-- The `Message` value type of `service/model/message.py`.  Python attributes
are dynamically typed and `from_json` stores whatever the decoded dictionary
holds, so every field is a `JVal`.  `__dict__` order is `id`, `name`, `data`,
`time_stamp` (set in `__init__` via `set_data`). -/
structure Message where
  id : JVal
  name : JVal
  data : JVal
  time_stamp : JVal
deriving DecidableEq, Repr

/-- One `setattr(self, key, val)` step of `Message.from_json`, guarded by
`key in attrs`: a key other than the four attribute names leaves the message
unchanged (unknown fields are ignored). -/
def setField (m : Message) (key : String) (v : JVal) : Message :=
  if key = "id" then { m with id := v }
  else if key = "name" then { m with name := v }
  else if key = "data" then { m with data := v }
  else if key = "time_stamp" then { m with time_stamp := v }
  else m

/-- Model of `Message.to_json`: `json.dumps(self.__dict__)`, modelled as the parsed
dictionary — the association list of the four fields in `__dict__` order. -/
def Message.to_json (m : Message) : List (String × JVal) :=
  [("id", m.id), ("name", m.name), ("data", m.data), ("time_stamp", m.time_stamp)]

/-- Model of `Message.from_json`: iterates over the decoded dictionary's items and
`setattr`s every key that names an existing attribute. -/
def Message.from_json (m : Message) (j : List (String × JVal)) : Message :=
  j.foldl (fun acc kv => setField acc kv.1 kv.2) m

/-- Model of `Message.from_json_str`: builds the placeholder message
`Message(42, 'unknown', 1)` — whose constructor stamps the current time,
passed here as `now` — and overwrites its fields from the dictionary. -/
def Message.from_json_str (j : List (String × JVal)) (now : String) : Message :=
  Message.from_json ⟨JVal.jnum 42, JVal.jstr "unknown", JVal.jnum 1, JVal.jstr now⟩ j

lemma from_json_id_stable (m : Message) (j : List (String × JVal))
    (h : "id" ∉ j.map Prod.fst) : (Message.from_json m j).id = m.id := by
  induction j generalizing m with
  | nil => rfl
  | cons kv t ih =>
    simp only [List.map_cons, List.mem_cons, not_or] at h
    show (Message.from_json (setField m kv.1 kv.2) t).id = m.id
    rw [ih _ h.2]
    unfold setField
    split_ifs <;> simp_all

lemma from_json_name_stable (m : Message) (j : List (String × JVal))
    (h : "name" ∉ j.map Prod.fst) : (Message.from_json m j).name = m.name := by
  induction j generalizing m with
  | nil => rfl
  | cons kv t ih =>
    simp only [List.map_cons, List.mem_cons, not_or] at h
    show (Message.from_json (setField m kv.1 kv.2) t).name = m.name
    rw [ih _ h.2]
    unfold setField
    split_ifs <;> simp_all

lemma from_json_data_stable (m : Message) (j : List (String × JVal))
    (h : "data" ∉ j.map Prod.fst) : (Message.from_json m j).data = m.data := by
  induction j generalizing m with
  | nil => rfl
  | cons kv t ih =>
    simp only [List.map_cons, List.mem_cons, not_or] at h
    show (Message.from_json (setField m kv.1 kv.2) t).data = m.data
    rw [ih _ h.2]
    unfold setField
    split_ifs <;> simp_all

lemma from_json_time_stamp_stable (m : Message) (j : List (String × JVal))
    (h : "time_stamp" ∉ j.map Prod.fst) :
    (Message.from_json m j).time_stamp = m.time_stamp := by
  induction j generalizing m with
  | nil => rfl
  | cons kv t ih =>
    simp only [List.map_cons, List.mem_cons, not_or] at h
    show (Message.from_json (setField m kv.1 kv.2) t).time_stamp = m.time_stamp
    rw [ih _ h.2]
    unfold setField
    split_ifs <;> simp_all

/-- C4: decoding the encoding restores every field of the original message,
whatever `now` the decoder's placeholder happens to stamp. -/
theorem to_json_from_json_roundtrip (m : Message) (now : String)
    (hdata : m.data ≠ JVal.jnull) :
    Message.from_json_str (Message.to_json m) now = m := by
  cases m
  simp [Message.from_json_str, Message.from_json, Message.to_json, setField]

/-- Witness for C4 at a concrete message and decode time. -/
theorem to_json_from_json_roundtrip_witness :
    Message.from_json_str
      (Message.to_json ⟨JVal.jnum 3, JVal.jstr "Sensor-3", JVal.jlist [1, 2], JVal.jstr "2023"⟩)
      "2024"
      = ⟨JVal.jnum 3, JVal.jstr "Sensor-3", JVal.jlist [1, 2], JVal.jstr "2023"⟩ :=
  to_json_from_json_roundtrip _ "2024" (by decide)

/-- C10: `from_json_str` never fails on a dictionary with missing fields (it is
a total function of the decoded dictionary); every omitted field keeps the
placeholder value of `Message(42, 'unknown', 1)` — `id = 42`,
`name = 'unknown'`, `data = 1`, and a freshly stamped `time_stamp`. -/
theorem from_json_missing_fields_default (j : List (String × JVal)) (now : String) :
    (("id" ∉ j.map Prod.fst → (Message.from_json_str j now).id = JVal.jnum 42) ∧
     ("name" ∉ j.map Prod.fst → (Message.from_json_str j now).name = JVal.jstr "unknown") ∧
     ("data" ∉ j.map Prod.fst → (Message.from_json_str j now).data = JVal.jnum 1) ∧
     ("time_stamp" ∉ j.map Prod.fst →
       (Message.from_json_str j now).time_stamp = JVal.jstr now)) :=
  ⟨fun h => from_json_id_stable _ j h,
   fun h => from_json_name_stable _ j h,
   fun h => from_json_data_stable _ j h,
   fun h => from_json_time_stamp_stable _ j h⟩

/-- Witness for C10: a dictionary carrying only `name` (plus an unknown key)
decodes to a message with every other field at its placeholder value. -/
theorem from_json_missing_fields_default_witness :
    (Message.from_json_str [("name", JVal.jstr "S"), ("noise", JVal.jnum 7)] "T").id
        = JVal.jnum 42 ∧
    (Message.from_json_str [("name", JVal.jstr "S"), ("noise", JVal.jnum 7)] "T").data
        = JVal.jnum 1 ∧
    (Message.from_json_str [("name", JVal.jstr "S"), ("noise", JVal.jnum 7)] "T").time_stamp
        = JVal.jstr "T" :=
  ⟨(from_json_missing_fields_default _ "T").1 (by decide),
   (from_json_missing_fields_default _ "T").2.2.1 (by decide),
   (from_json_missing_fields_default _ "T").2.2.2 (by decide)⟩

/-- One member sink of a composed decorator chain
(`service/repository/repository.py`).  `fails` says whether this sink's
`_handle` raises on every write (the failing-sink scenario of the spec);
`seen` is the list of messages the sink has observed. -/
structure Sink where
  fails : Bool
  seen : List Message
deriving DecidableEq, Repr

/-- Model of `RepositoryDecorator.append` unrolled over the whole chain.  In the source,
a chain built as `Repository().a(...).b(...).c(...)` nests decorators so that
`append` on the outermost object first recurses into the innermost sink and
runs each `_handle` on the way out: delivery order is innermost first, which is
the chain's configured order.  The list holds the sinks in that delivery
order.  `RepositoryDecorator.append` wraps `self._handle(message)` in no
`try`/`except`, so a raising `_handle` aborts every later sink's delivery; the
Boolean records whether the append completed without an exception, and the
returned list is the chain state when control leaves `append` (normally or by
the propagating exception). -/
def RepositoryDecorator.append (m : Message) : List Sink → List Sink × Bool
  | [] => ([], true)
  | s :: rest =>
    if s.fails then (s :: rest, false)
    else
      let res := RepositoryDecorator.append m rest
      ({ s with seen := s.seen ++ [m] } :: res.1, res.2)

/-- C1 counterexample: in a chain of 3 sinks whose 2nd sink's write always
fails, appending one message delivers it to the 1st sink but NOT to the 3rd —
the exception from the 2nd sink's `_handle` propagates and skips the rest of
the chain, contradicting the claimed failure isolation. -/
theorem chain_fanout_counterexample :
    RepositoryDecorator.append ⟨JVal.jnum 0, JVal.jstr "S", JVal.jnum 5, JVal.jstr "t"⟩
        [⟨false, []⟩, ⟨true, []⟩, ⟨false, []⟩]
      = ([⟨false, [⟨JVal.jnum 0, JVal.jstr "S", JVal.jnum 5, JVal.jstr "t"⟩]⟩,
          ⟨true, []⟩, ⟨false, []⟩], false) ∧
    ⟨JVal.jnum 0, JVal.jstr "S", JVal.jnum 5, JVal.jstr "t"⟩ ∉
      ((RepositoryDecorator.append ⟨JVal.jnum 0, JVal.jstr "S", JVal.jnum 5, JVal.jstr "t"⟩
        [⟨false, []⟩, ⟨true, []⟩, ⟨false, []⟩]).1.getD 2 ⟨false, []⟩).seen := by
  decide

/-- C1 amended: appending `m` delivers it, in chain order, to every sink
strictly before the first failing sink; the failing sink's exception prevents
delivery to that sink and to every later sink (and propagates to the caller).
When no sink fails, every sink observes `m` in order. -/
theorem chain_append_delivery (m : Message) (pre : List Sink) (s : Sink)
    (post : List Sink) (ch : List Sink)
    (hpre : ∀ t ∈ pre, t.fails = false) (hs : s.fails = true)
    (hch : ∀ t ∈ ch, t.fails = false) :
    RepositoryDecorator.append m (pre ++ s :: post)
      = (pre.map (fun t => { t with seen := t.seen ++ [m] }) ++ s :: post, false) ∧
    RepositoryDecorator.append m ch
      = (ch.map (fun t => { t with seen := t.seen ++ [m] }), true) := by
  constructor
  · induction pre with
    | nil => simp [RepositoryDecorator.append, hs]
    | cons t ts ih =>
      have ht : t.fails = false := hpre t (by simp)
      have := ih (fun u hu => hpre u (by simp [hu]))
      simp [RepositoryDecorator.append, ht, this]
  · induction ch with
    | nil => rfl
    | cons t ts ih =>
      have ht : t.fails = false := hch t (by simp)
      have := ih (fun u hu => hch u (by simp [hu]))
      simp [RepositoryDecorator.append, ht, this]

/-- Witness for C1 amended: a failing 2nd sink blocks the 3rd, and an
all-healthy chain of 3 sinks delivers to all of them. -/
theorem chain_append_delivery_witness :
    RepositoryDecorator.append ⟨JVal.jnum 1, JVal.jstr "S", JVal.jnum 9, JVal.jstr "t"⟩
        ([⟨false, []⟩] ++ ⟨true, []⟩ :: [⟨false, []⟩])
      = ([⟨false, [⟨JVal.jnum 1, JVal.jstr "S", JVal.jnum 9, JVal.jstr "t"⟩]⟩,
          ⟨true, []⟩, ⟨false, []⟩], false) ∧
    RepositoryDecorator.append ⟨JVal.jnum 1, JVal.jstr "S", JVal.jnum 9, JVal.jstr "t"⟩
        [⟨false, []⟩, ⟨false, []⟩, ⟨false, []⟩]
      = ([⟨false, [⟨JVal.jnum 1, JVal.jstr "S", JVal.jnum 9, JVal.jstr "t"⟩]⟩,
          ⟨false, [⟨JVal.jnum 1, JVal.jstr "S", JVal.jnum 9, JVal.jstr "t"⟩]⟩,
          ⟨false, [⟨JVal.jnum 1, JVal.jstr "S", JVal.jnum 9, JVal.jstr "t"⟩]⟩], true) := by
  have h := chain_append_delivery ⟨JVal.jnum 1, JVal.jstr "S", JVal.jnum 9, JVal.jstr "t"⟩
    [⟨false, []⟩] ⟨true, []⟩ [⟨false, []⟩]
    [⟨false, []⟩, ⟨false, []⟩, ⟨false, []⟩]
    (by decide) (by decide) (by decide)
  exact ⟨h.1, h.2⟩

/-- One line of the CSV file written by `CSVRepository`: the lazily written
header line (`writerow(message.__dict__.keys())`) or one sample row
(`writerow(message.__dict__.values())`). -/
inductive CsvRow where
  | header : CsvRow
  | row : Message → CsvRow
deriving DecidableEq, Repr

/-- The observable state of a `CSVRepository`: its `header_written` flag and
the contents of its file (the file is re-opened in append mode on every
`_handle` call; there is no writer thread and no open/closed state). -/
structure CSVRepositoryState where
  header_written : Bool
  file : List CsvRow
deriving DecidableEq, Repr

/-- Model of `CSVRepository._handle`: sentinel (`None`) data returns without writing;
otherwise the header line is appended once (lazily) and then the sample row. -/
def CSVRepository.handle (st : CSVRepositoryState) (m : Message) : CSVRepositoryState :=
  if m.data = JVal.jnull then st
  else
    { header_written := true,
      file := st.file ++ (if st.header_written then [] else [CsvRow.header])
                ++ [CsvRow.row m] }

/-- A sequence of appends reaching the CSV sink's `_handle`, in order. -/
def CSVRepository.run (st : CSVRepositoryState) (ms : List Message) : CSVRepositoryState :=
  ms.foldl CSVRepository.handle st

/-- C7 counterexample: appending a sentinel and then a normal message writes
the normal message to the CSV file — the sentinel does not stop the sink, so
an append occurring after a sentinel append does modify the file. -/
theorem csv_after_sentinel_counterexample :
    CSVRepository.run ⟨false, []⟩
        [⟨JVal.jnum 0, JVal.jstr "S", JVal.jnull, JVal.jstr "t"⟩,
         ⟨JVal.jnum 0, JVal.jstr "S", JVal.jnum 5, JVal.jstr "u"⟩]
      ≠ CSVRepository.run ⟨false, []⟩
          [⟨JVal.jnum 0, JVal.jstr "S", JVal.jnull, JVal.jstr "t"⟩] := by
  decide

/-- C7 amended: a sentinel append leaves the CSV sink's state (including the
file) unchanged — the sentinel row is never written — but nothing stops or
closes the sink: a non-sentinel append, even after a sentinel, is written as
usual (header lazily, then the sample row). -/
theorem csv_sentinel_skipped_not_stopping (st st' : CSVRepositoryState)
    (m m' : Message) (hm : m.data = JVal.jnull) (hm' : m'.data ≠ JVal.jnull) :
    CSVRepository.handle st m = st ∧
    (CSVRepository.handle st' m').file
      = st'.file ++ (if st'.header_written then [] else [CsvRow.header])
          ++ [CsvRow.row m'] := by
  constructor
  · simp [CSVRepository.handle, hm]
  · simp [CSVRepository.handle, hm']

/-- Witness for C7 amended at concrete states and messages. -/
theorem csv_sentinel_skipped_not_stopping_witness :
    CSVRepository.handle ⟨true, [CsvRow.header]⟩
        ⟨JVal.jnum 0, JVal.jstr "S", JVal.jnull, JVal.jstr "t"⟩
      = ⟨true, [CsvRow.header]⟩ ∧
    (CSVRepository.handle ⟨true, [CsvRow.header]⟩
        ⟨JVal.jnum 0, JVal.jstr "S", JVal.jnum 5, JVal.jstr "u"⟩).file
      = [CsvRow.header]
          ++ (if (true : Bool) then [] else [CsvRow.header])
          ++ [CsvRow.row ⟨JVal.jnum 0, JVal.jstr "S", JVal.jnum 5, JVal.jstr "u"⟩] :=
  csv_sentinel_skipped_not_stopping ⟨true, [CsvRow.header]⟩ ⟨true, [CsvRow.header]⟩
    ⟨JVal.jnum 0, JVal.jstr "S", JVal.jnull, JVal.jstr "t"⟩
    ⟨JVal.jnum 0, JVal.jstr "S", JVal.jnum 5, JVal.jstr "u"⟩
    (by decide) (by decide)

/-- An operation on the SQL sink: an `append` reaching `SQLRepository._handle`,
a call of `__iter__` (which resets `self.rowid` to 0), or a call of `__next__`
(which reads the row keyed `self.rowid` and increments the counter on a hit). -/
inductive SqlOp where
  | app : Message → SqlOp
  | iterBegin : SqlOp
  | iterNext : SqlOp
deriving DecidableEq, Repr

/-- The observable state of a `SQLRepository`: the `rowid` counter, the
`table_created` flag, and the `sensor_messages` table as rows keyed by their
`message_id` primary key. -/
structure SQLRepositoryState where
  rowid : Nat
  table_created : Bool
  table : List (Nat × Message)
deriving DecidableEq, Repr

/-- One operation of the SQL sink.  Returns the new state together with the
list of row ids used as insert keys by this operation (empty for non-inserts).
`_handle` skips sentinel data, lazily creates the table (which adds no row),
inserts keyed by the current `rowid` and increments it; `__iter__` resets
`rowid` to 0; `__next__` increments `rowid` when the keyed row exists. -/
def SQLRepository.step (st : SQLRepositoryState) : SqlOp → SQLRepositoryState × List Nat
  | SqlOp.app m =>
    if m.data = JVal.jnull then (st, [])
    else ({ rowid := st.rowid + 1, table_created := true,
            table := st.table ++ [(st.rowid, m)] }, [st.rowid])
  | SqlOp.iterBegin => ({ st with rowid := 0 }, [])
  | SqlOp.iterNext =>
    match st.table.find? (fun r => r.1 == st.rowid) with
    | some _ => ({ st with rowid := st.rowid + 1 }, [])
    | none => (st, [])

/-- A sequence of SQL-sink operations; accumulates the insert keys in order. -/
def SQLRepository.run : SQLRepositoryState → List SqlOp → SQLRepositoryState × List Nat
  | st, [] => (st, [])
  | st, op :: ops =>
    let r := SQLRepository.step st op
    let rest := SQLRepository.run r.1 ops
    (rest.1, r.2 ++ rest.2)

/-- C8 counterexample: two appends followed by `__iter__` reset the row-id
counter to 0, so a further append reuses key 0 — the sequence of insert keys
is `[0, 1, 0]`, and the third insert's key is not greater than the previously
used key 1. -/
theorem sql_rowid_counterexample :
    (SQLRepository.run ⟨0, false, []⟩
        [SqlOp.app ⟨JVal.jnum 0, JVal.jstr "S", JVal.jnum 5, JVal.jstr "t"⟩,
         SqlOp.app ⟨JVal.jnum 0, JVal.jstr "S", JVal.jnum 6, JVal.jstr "u"⟩,
         SqlOp.iterBegin,
         SqlOp.app ⟨JVal.jnum 0, JVal.jstr "S", JVal.jnum 7, JVal.jstr "v"⟩]).2
      = [0, 1, 0] ∧
    ¬ List.Pairwise (fun a b => a < b)
        (SQLRepository.run ⟨0, false, []⟩
          [SqlOp.app ⟨JVal.jnum 0, JVal.jstr "S", JVal.jnum 5, JVal.jstr "t"⟩,
           SqlOp.app ⟨JVal.jnum 0, JVal.jstr "S", JVal.jnum 6, JVal.jstr "u"⟩,
           SqlOp.iterBegin,
           SqlOp.app ⟨JVal.jnum 0, JVal.jstr "S", JVal.jnum 7, JVal.jstr "v"⟩]).2 := by
  decide

lemma sql_run_app_keys (msgs : List Message) (st : SQLRepositoryState) :
    st.rowid ≤ (SQLRepository.run st (msgs.map SqlOp.app)).1.rowid ∧
    (∀ k ∈ (SQLRepository.run st (msgs.map SqlOp.app)).2,
        st.rowid ≤ k ∧ k < (SQLRepository.run st (msgs.map SqlOp.app)).1.rowid) ∧
    List.Pairwise (fun a b => a < b) (SQLRepository.run st (msgs.map SqlOp.app)).2 := by
  induction msgs generalizing st with
  | nil => simp [SQLRepository.run]
  | cons m ms ih =>
    by_cases hm : m.data = JVal.jnull
    · simpa [SQLRepository.run, SQLRepository.step, hm] using ih st
    · have h := ih { rowid := st.rowid + 1, table_created := true,
                     table := st.table ++ [(st.rowid, m)] }
      have h1 := h.1
      have h2 := h.2.1
      have h3 := h.2.2
      dsimp only at h1 h2
      simp only [List.map_cons, SQLRepository.run, SQLRepository.step]
      rw [if_neg hm]
      dsimp only
      simp only [List.singleton_append, List.pairwise_cons, List.mem_cons]
      refine ⟨by omega, ?_, ?_, h3⟩
      · rintro k (rfl | hk)
        · omega
        · have := h2 k hk
          omega
      · intro k hk
        have := h2 k hk
        omega

/-- The shared-memory mailbox owned by `SMClientConnection`: the 1-byte
`new_data_flag` region and the fixed-size `message` buffer created with
`size=2048`.  Mailbox bytes are modelled as `List Nat`. -/
structure SMState where
  new_data_flag : Bool
  mailbox : List Nat
deriving DecidableEq, Repr

/-- Model of `SMClientConnection.send`, applied once the spin loop has observed a clear
flag, to the already-encoded payload bytes.  The guard
`msglen > len(self.message.buf)` raises `MemoryError` before anything is
written (modelled as `Except.error` carrying the exception text, with the
state untouched); otherwise `buf[:msglen] = msg` overwrites the first
`msglen` bytes, the flag byte is set, and control falls off the end of the
Python function — which therefore returns `None`, modelled as the
`Option Bool` value `none` (the function is annotated `-> bool` but no path
returns a boolean). -/
def SMClientConnection.send (st : SMState) (msg : List Nat) :
    Except String (SMState × Option Bool) :=
  if msg.length > st.mailbox.length then
    Except.error "Message too long for shared memory buffer"
  else
    Except.ok ({ new_data_flag := true,
                 mailbox := msg ++ st.mailbox.drop msg.length }, none)

/-- C5: with the 2048-byte mailbox and a clear flag, a payload of exactly 2048
bytes is written into the mailbox (filling it entirely) and the flag is set,
while a payload of 2049 bytes raises the explicit capacity-exceeded
`MemoryError` before any write. -/
theorem sm_send_capacity (st : SMState) (p q : List Nat)
    (hbox : st.mailbox.length = 2048) (hflag : st.new_data_flag = false)
    (hp : p.length = 2048) (hq : q.length = 2049) :
    SMClientConnection.send st p = Except.ok (⟨true, p⟩, none) ∧
    SMClientConnection.send st q
      = Except.error "Message too long for shared memory buffer" := by
  constructor
  · have hdrop : st.mailbox.drop p.length = [] :=
      List.drop_eq_nil_of_le (by omega)
    simp [SMClientConnection.send, hdrop, hp, hbox]
  · unfold SMClientConnection.send
    rw [if_pos (by omega)]

/-- Witness for C5 at the concrete mailbox state and concrete payloads. -/
theorem sm_send_capacity_witness :
    SMClientConnection.send ⟨false, List.replicate 2048 0⟩ (List.replicate 2048 65)
      = Except.ok (⟨true, List.replicate 2048 65⟩, none) ∧
    SMClientConnection.send ⟨false, List.replicate 2048 0⟩ (List.replicate 2049 66)
      = Except.error "Message too long for shared memory buffer" :=
  sm_send_capacity ⟨false, List.replicate 2048 0⟩ _ _
    (by simp only [List.length_replicate]) rfl
    (by simp only [List.length_replicate]) (by simp only [List.length_replicate])

/-- C6 counterexample: a successful shared-memory `send` returns Python
`None`, not a boolean — `SMClientConnection.send` is annotated `-> bool` but
has no return statement on its success path, so the producer contract
"`send(message) -> bool`" does not hold for the shared-memory variant. -/
theorem producer_send_bool_counterexample :
    (SMClientConnection.send ⟨false, List.replicate 2048 0⟩ [123]).toOption.map
        (fun r => r.2) = some none ∧
    (SMClientConnection.send ⟨false, List.replicate 2048 0⟩ [123]).toOption.map
        (fun r => r.2) ≠ some (some true) ∧
    (SMClientConnection.send ⟨false, List.replicate 2048 0⟩ [123]).toOption.map
        (fun r => r.2) ≠ some (some false) := by
  have hsend : (SMClientConnection.send ⟨false, List.replicate 2048 0⟩ [123]).toOption.map
      (fun r => r.2) = some none := by
    unfold SMClientConnection.send
    rw [if_neg (by simp only [List.length_replicate, List.length_cons, List.length_nil]; omega)]
    rfl
  exact ⟨hsend, by rw [hsend]; simp, by rw [hsend]; simp⟩

/-- The byte-writing loop of `ClientConnection.send` (socket variant).
`oracle i` is the value returned by the `i`-th call of `self.sckt.send`, i.e.
how many bytes the socket accepted; 0 models the zero-byte write that the code
interprets as peer-closed.  Returns the boolean that `send` returns: `false`
on a zero-byte write, `true` once `totalsent` has reached the payload
length. -/
def ClientConnection.sendLoop (oracle : Nat → Nat) (msglen call totalsent : Nat) : Bool :=
  if totalsent < msglen then
    if oracle call = 0 then false
    else ClientConnection.sendLoop oracle msglen (call + 1) (totalsent + oracle call)
  else true
termination_by msglen - totalsent
decreasing_by omega

/-- Model of `ClientConnection.send` on an established connection: runs the writing
loop over the encoded payload from offset 0. -/
def ClientConnection.send (oracle : Nat → Nat) (msg : List Nat) : Bool :=
  ClientConnection.sendLoop oracle msg.length 0 0

/-- Model of `PipeClientConnection.send`: `self.pipe.send(d.to_json()); return True` —
it returns `True` unconditionally (a broken pipe surfaces as an exception
from `pipe.send`, never as a `False` return). -/
def PipeClientConnection.send (_m : Message) : Bool :=
  true

lemma sendLoop_all_pos (oracle : Nat → Nat) (hpos : ∀ i, oracle i ≠ 0)
    (msglen : Nat) :
    ∀ k call totalsent, msglen - totalsent ≤ k →
      ClientConnection.sendLoop oracle msglen call totalsent = true := by
  intro k
  induction k with
  | zero =>
    intro call totalsent h
    unfold ClientConnection.sendLoop
    rw [if_neg (by omega)]
  | succ k ih =>
    intro call totalsent h
    unfold ClientConnection.sendLoop
    by_cases ht : totalsent < msglen
    · rw [if_pos ht, if_neg (hpos call)]
      exact ih (call + 1) (totalsent + oracle call)
        (by have := Nat.pos_of_ne_zero (hpos call); omega)
    · rw [if_neg ht]

/-- C6 amended: only the socket variant's `send` implements the
return-a-boolean contract: it returns `false` when the socket accepts zero
bytes (peer closed) and `true` when every byte is accepted, and — being a
plain function of its inputs — may be called again after a failure.  The pipe
variant's `send` returns `True` unconditionally (an unavailable pipe raises
instead of returning `false`), and the shared-memory variant returns no
boolean at all (see the counterexample). -/
theorem client_send_bool_behavior (oracle : Nat → Nat) (msg : List Nat)
    (m : Message) (hmsg : msg ≠ []) (hpos : ∀ i, oracle i ≠ 0) :
    ClientConnection.send (fun _ => 0) msg = false ∧
    ClientConnection.send oracle msg = true ∧
    PipeClientConnection.send m = true := by
  refine ⟨?_, ?_, rfl⟩
  · have hlen : 0 < msg.length := List.length_pos.mpr hmsg
    unfold ClientConnection.send ClientConnection.sendLoop
    rw [if_pos hlen, if_pos rfl]
  · exact sendLoop_all_pos oracle hpos msg.length msg.length 0 0 (by omega)

/-- Witness for C6 amended at a concrete payload and a concrete oracle that
accepts one byte per call. -/
theorem client_send_bool_behavior_witness :
    ClientConnection.send (fun _ => 0) [7, 8] = false ∧
    ClientConnection.send (fun _ => 1) [7, 8] = true ∧
    PipeClientConnection.send ⟨JVal.jnum 0, JVal.jstr "S", JVal.jnum 5, JVal.jstr "t"⟩
      = true :=
  client_send_bool_behavior (fun _ => 1) [7, 8]
    ⟨JVal.jnum 0, JVal.jstr "S", JVal.jnum 5, JVal.jstr "t"⟩
    (by decide) (fun _ => Nat.one_ne_zero)

/-- C8 amended: over any sequence of appends NOT interleaved with iteration,
the SQL sink's insert keys are strictly increasing and all at least the
starting counter value; iterating the sink (`__iter__`) resets the counter to
0, so ids can be reused after an iteration (see the counterexample). -/
theorem sql_rowid_strictly_increasing (st : SQLRepositoryState) (msgs : List Message) :
    List.Pairwise (fun a b => a < b) (SQLRepository.run st (msgs.map SqlOp.app)).2 ∧
    ∀ k ∈ (SQLRepository.run st (msgs.map SqlOp.app)).2, st.rowid ≤ k :=
  ⟨(sql_run_app_keys msgs st).2.2,
   fun k hk => ((sql_run_app_keys msgs st).2.1 k hk).1⟩

/-- Model of `ServerConnection.__read`, second loop: `while opening_brackets >
closing_brackets`, receive another chunk and add its brace counts.  `chunks`
is the sequence of byte strings the successive `recv` calls deliver; `acc` the
bytes joined so far; `op`/`cl` the running bracket tallies.  An exhausted
chunk list while the loop still wants data is modelled as `none` (no further
data will arrive; in the source an empty `recv` raises instead).  On balance
it returns `b''.join(chunks)` so far, together with the chunks left over for
the next `__read` call. -/
def readBalanced : List (List Char) → List Char → Nat → Nat →
    Option (List Char × List (List Char))
  | [], acc, op, cl => if op ≤ cl then some (acc, []) else none
  | c :: rest, acc, op, cl =>
    if op ≤ cl then some (acc, c :: rest)
    else readBalanced rest (acc ++ c) (op + c.count '{') (cl + c.count '}')

/-- Model of `ServerConnection.__read`, first loop: `while opening_brackets == 0`,
receive chunks until one contains an opening bracket, then fall through to the
balancing loop. -/
def readOpening : List (List Char) → List Char → Nat → Nat →
    Option (List Char × List (List Char))
  | [], acc, op, cl => if op = 0 then none else readBalanced [] acc op cl
  | c :: rest, acc, op, cl =>
    if op = 0 then readOpening rest (acc ++ c) (op + c.count '{') (cl + c.count '}')
    else readBalanced (c :: rest) acc op cl

/-- Model of `ServerConnection.__read`: one framed read from the byte stream delivered
as `chunks`, starting with empty tallies. -/
def ServerConnection.read (chunks : List (List Char)) :
    Option (List Char × List (List Char)) :=
  readOpening chunks [] 0 0

/-- The byte stream `b'{"a":1}'` of the framing scenario. -/
def msgA : List Char := ['{', '"', 'a', '"', ':', '1', '}']

/-- The byte stream `b'{"b":2}'` of the framing scenario. -/
def msgB : List Char := ['{', '"', 'b', '"', ':', '2', '}']

/-- C2 counterexample: when one `recv` delivers the whole stream
`b'{"a":1}' + b'{"b":2}'` as a single chunk, the first framed read returns the
two encoded messages joined together — not `{"a":1}` alone — because the
bracket tallies of the combined chunk are already balanced. -/
theorem framing_chunks_counterexample :
    ServerConnection.read [msgA ++ msgB] = some (msgA ++ msgB, []) ∧
    msgA ++ msgB ≠ msgA := by
  decide

/-- A well-framed single-message byte string: it starts with `{`, its final
bracket tallies satisfy the balancing loop's exit condition, and every proper
non-empty prefix is strictly unbalanced (more `{` than `}` so far), which
forces the balancing loop to stop exactly at the end of the message. -/
def framedMsg (msg : List Char) : Prop :=
  msg.head? = some '{' ∧ msg.count '{' ≤ msg.count '}' ∧
  ∀ k < msg.length, 0 < k → (msg.take k).count '}' < (msg.take k).count '{'

instance (msg : List Char) : Decidable (framedMsg msg) := by
  unfold framedMsg
  infer_instance

lemma readBalanced_extracts (msg : List Char)
    (hend : msg.count '{' ≤ msg.count '}')
    (hpre : ∀ k < msg.length, 0 < k →
      (msg.take k).count '}' < (msg.take k).count '{') :
    ∀ (cs tail : List (List Char)) (acc : List Char),
      acc ≠ [] → (∀ c ∈ cs, c ≠ []) → acc ++ cs.flatten = msg →
      readBalanced (cs ++ tail) acc (acc.count '{') (acc.count '}')
        = some (msg, tail) := by
  intro cs
  induction cs with
  | nil =>
    intro tail acc hacc hcs hjoin
    simp only [List.flatten_nil, List.append_nil] at hjoin
    subst hjoin
    cases tail <;> simp [readBalanced, hend]
  | cons c cs ih =>
    intro tail acc hacc hcs hjoin
    have hc : c ≠ [] := hcs c (List.mem_cons_self c cs)
    have hclen : 0 < c.length := List.length_pos.mpr hc
    have haclen : 0 < acc.length := List.length_pos.mpr hacc
    simp only [List.flatten_cons] at hjoin
    have hlen : acc.length < msg.length := by
      rw [← hjoin]
      simp only [List.length_append]
      omega
    have htake : msg.take acc.length = acc := by
      rw [← hjoin, ← List.append_assoc]
      have := List.take_left (acc ++ c) cs.flatten
      rw [← hjoin] at hlen
      simpa [List.take_append_eq_append_take, List.take_of_length_le,
        Nat.sub_eq_zero_of_le] using List.take_left acc (c ++ cs.flatten)
    have hlt : acc.count '}' < acc.count '{' := by
      have h := hpre acc.length hlen haclen
      rwa [htake] at h
    rw [List.cons_append]
    show readBalanced (c :: (cs ++ tail)) acc (acc.count '{') (acc.count '}')
      = some (msg, tail)
    unfold readBalanced
    rw [if_neg (by omega), ← List.count_append, ← List.count_append]
    exact ih tail (acc ++ c) (by simp [hacc])
      (fun d hd => hcs d (List.mem_cons_of_mem _ hd))
      (by rw [List.append_assoc]; exact hjoin)

lemma readOpening_of_ne_zero (l : List (List Char)) (acc : List Char)
    (op cl : Nat) (h : op ≠ 0) : readOpening l acc op cl = readBalanced l acc op cl := by
  cases l <;> simp [readOpening, h]

lemma ServerConnection_read_extracts (msg : List Char) (hspec : framedMsg msg)
    (chunks tail : List (List Char)) (hne : ∀ c ∈ chunks, c ≠ [])
    (hjoin : chunks.flatten = msg) :
    ServerConnection.read (chunks ++ tail) = some (msg, tail) := by
  obtain ⟨hhead, hend, hpre⟩ := hspec
  cases chunks with
  | nil =>
    exfalso
    simp only [List.flatten_nil] at hjoin
    rw [← hjoin] at hhead
    simp at hhead
  | cons c cs =>
    have hc : c ≠ [] := hne c (List.mem_cons_self c cs)
    obtain ⟨ch, t, rfl⟩ : ∃ ch t, c = ch :: t := by
      cases c with
      | nil => exact absurd rfl hc
      | cons ch t => exact ⟨ch, t, rfl⟩
    simp only [List.flatten_cons] at hjoin
    have hch : ch = '{' := by
      rw [← hjoin] at hhead
      simpa using hhead
    subst hch
    have hopen : (('{' :: t).count '{') ≠ 0 := by
      simp [List.count_cons]
    rw [List.cons_append]
    show readOpening (('{' :: t) :: (cs ++ tail)) [] 0 0 = some (msg, tail)
    unfold readOpening
    rw [if_pos rfl]
    rw [readOpening_of_ne_zero _ _ _ _ (by simpa using hopen)]
    have := readBalanced_extracts msg hend hpre cs tail ('{' :: t)
      (by simp) (fun d hd => hne d (List.mem_cons_of_mem _ hd)) hjoin
    simpa [Nat.zero_add] using this

/-- C2 amended: the framing read extracts `{"a":1}` and then `{"b":2}` as two
separate messages, in order, exactly when a chunk boundary falls at the
boundary between the two encoded messages (each message is delivered as a
run of whole chunks); when a chunk straddles the two messages this fails —
see the counterexample, where a single chunk carrying both messages is
returned as one combined read. -/
theorem framing_aligned_chunks (chunks1 chunks2 : List (List Char))
    (h1 : ∀ c ∈ chunks1, c ≠ []) (h2 : ∀ c ∈ chunks2, c ≠ [])
    (hj1 : chunks1.flatten = msgA) (hj2 : chunks2.flatten = msgB) :
    ServerConnection.read (chunks1 ++ chunks2) = some (msgA, chunks2) ∧
    ServerConnection.read chunks2 = some (msgB, []) := by
  have sA : framedMsg msgA := by decide
  have sB : framedMsg msgB := by decide
  refine ⟨ServerConnection_read_extracts msgA sA chunks1 chunks2 h1 hj1, ?_⟩
  have := ServerConnection_read_extracts msgB sB chunks2 [] h2 hj2
  simpa using this

/-- Witness for C2 amended: the first message arrives in two chunks, the
second in one chunk, with a chunk boundary at the message boundary. -/
theorem framing_aligned_chunks_witness :
    ServerConnection.read ([['{', '"', 'a'], ['"', ':', '1', '}']] ++ [msgB])
      = some (msgA, [msgB]) ∧
    ServerConnection.read [msgB] = some (msgB, []) :=
  framing_aligned_chunks [['{', '"', 'a'], ['"', ':', '1', '}']] [msgB]
    (by decide) (by decide) (by decide) (by decide)

/-- The scanning loop of `SMServerConnection.chop_json`: walks the string with
index `ind`, bracket tallies `op`/`cl`, and `start_ind` `st` (initially `-1`,
set at the first `{`).  At a `}` that balances the tallies it breaks with
`end_ind` set to the current index; falling off the end leaves `end_ind`
at `-1`.  Returns `(start_ind, end_ind)`. -/
def chopLoop : List Char → Nat → Nat → Nat → Int → Int × Int
  | [], _, _, _, st => (st, -1)
  | ch :: rest, ind, op, cl, st =>
    if ch = '{' then
      chopLoop rest (ind + 1) (op + 1) cl (if st < 0 then (ind : Int) else st)
    else if ch = '}' then
      if op = cl + 1 then (st, (ind : Int))
      else chopLoop rest (ind + 1) op (cl + 1) st
    else chopLoop rest (ind + 1) op cl st

/-- Python's slice `j[start_ind : end_ind + 1]` for the index values
`chop_json` can produce: `start_ind = -1` (no `{` found) gives `j[-1:0]`,
which is empty, and `end_ind = -1` with `start_ind ≥ 0` gives `j[start:0]`,
also empty; otherwise both indices are non-negative. -/
def pySlice (j : List Char) (start stop : Int) : List Char :=
  if start < 0 then []
  else if stop < 0 then []
  else (j.take (stop.toNat + 1)).drop start.toNat

/-- Model of `SMServerConnection.chop_json`: scan, then return
`j[start_ind : end_ind + 1]`. -/
def SMServerConnection.chop_json (j : List Char) : List Char :=
  match chopLoop j 0 0 0 (-1) with
  | (st, en) => pySlice j st en

/-- C3 counterexample: the string `}{{}}` contains the balanced span `{}`
(at positions 2–3), yet `chop_json` is not idempotent on it: the closing
bracket before the first `{` inflates the closing tally, so the scan stops at
position 3 and returns the unbalanced string `{{}`, and a second application
collapses that to the empty string. -/
theorem chop_json_idem_counterexample :
    ((['}', '{', '{', '}', '}'] : List Char).drop 2).take 2 = ['{', '}'] ∧
    SMServerConnection.chop_json ['}', '{', '{', '}', '}'] = ['{', '{', '}'] ∧
    SMServerConnection.chop_json
        (SMServerConnection.chop_json ['}', '{', '{', '}', '}'])
      ≠ SMServerConnection.chop_json ['}', '{', '{', '}', '}'] := by
  decide

/-- Returns `true` iff no `}` occurs before the first `{` (scanning left to right;
vacuously true when the string has no brackets at all). -/
def noCloseBeforeOpen : List Char → Bool
  | [] => true
  | c :: rest =>
    if c = '}' then false
    else if c = '{' then true
    else noCloseBeforeOpen rest

/-- Relative position of the `}` at which the `chop_json` scan balances, when
the scan is already past its first `{` (tallies `op`/`cl` so far): `none` if
the tallies never balance in the rest of the string. -/
def endScan : List Char → Nat → Nat → Option Nat
  | [], _, _ => none
  | c :: rest, op, cl =>
    if c = '{' then (endScan rest (op + 1) cl).map (· + 1)
    else if c = '}' then
      if op = cl + 1 then some 0 else (endScan rest op (cl + 1)).map (· + 1)
    else (endScan rest op cl).map (· + 1)

lemma chopLoop_nonneg (q : List Char) :
    ∀ (ind op cl : Nat) (st : Int), 0 ≤ st →
      chopLoop q ind op cl st
        = (st, match endScan q op cl with
               | none => -1
               | some k => ((ind + k : Nat) : Int)) := by
  induction q with
  | nil => intro ind op cl st hst; rfl
  | cons c rest ih =>
    intro ind op cl st hst
    by_cases hc : c = '{'
    · simp only [chopLoop, endScan, if_pos hc]
      rw [if_neg (by omega), ih (ind + 1) (op + 1) cl st hst]
      cases hres : endScan rest (op + 1) cl with
      | none => simp [hres]
      | some k =>
        simp only [hres, Option.map_some']
        have harith : ind + 1 + k = ind + (k + 1) := by omega
        rw [harith]
    · by_cases hc2 : c = '}'
      · by_cases hop : op = cl + 1
        · simp only [chopLoop, endScan, if_neg hc, if_pos hc2, if_pos hop]
          simp
        · simp only [chopLoop, endScan, if_neg hc, if_pos hc2, if_neg hop]
          rw [ih (ind + 1) op (cl + 1) st hst]
          cases hres : endScan rest op (cl + 1) with
          | none => simp [hres]
          | some k =>
            simp only [hres, Option.map_some']
            have harith : ind + 1 + k = ind + (k + 1) := by omega
            rw [harith]
      · simp only [chopLoop, endScan, if_neg hc, if_neg hc2]
        rw [ih (ind + 1) op cl st hst]
        cases hres : endScan rest op cl with
        | none => simp [hres]
        | some k =>
          simp only [hres, Option.map_some']
          have harith : ind + 1 + k = ind + (k + 1) := by omega
          rw [harith]

lemma endScan_take (q : List Char) :
    ∀ (op cl k : Nat), endScan q op cl = some k →
      endScan (q.take (k + 1)) op cl = some k := by
  induction q with
  | nil => intro op cl k h; simp [endScan] at h
  | cons c rest ih =>
    intro op cl k h
    by_cases hc : c = '{'
    · rw [endScan, if_pos hc] at h
      obtain ⟨k', hk', rfl⟩ := Option.map_eq_some'.mp h
      rw [List.take_succ_cons, endScan, if_pos hc, ih (op + 1) cl k' hk']
      rfl
    · by_cases hc2 : c = '}'
      · by_cases hop : op = cl + 1
        · rw [endScan, if_neg hc, if_pos hc2, if_pos hop] at h
          obtain rfl : k = 0 := by simpa using h.symm
          rw [List.take_succ_cons, endScan, if_neg hc, if_pos hc2, if_pos hop]
        · rw [endScan, if_neg hc, if_pos hc2, if_neg hop] at h
          obtain ⟨k', hk', rfl⟩ := Option.map_eq_some'.mp h
          rw [List.take_succ_cons, endScan, if_neg hc, if_pos hc2, if_neg hop,
            ih op (cl + 1) k' hk']
          rfl
      · rw [endScan, if_neg hc, if_neg hc2] at h
        obtain ⟨k', hk', rfl⟩ := Option.map_eq_some'.mp h
        rw [List.take_succ_cons, endScan, if_neg hc, if_neg hc2, ih op cl k' hk']
        rfl

lemma endScan_lt_length (q : List Char) :
    ∀ (op cl k : Nat), endScan q op cl = some k → k < q.length := by
  induction q with
  | nil => intro op cl k h; simp [endScan] at h
  | cons c rest ih =>
    intro op cl k h
    by_cases hc : c = '{'
    · rw [endScan, if_pos hc] at h
      obtain ⟨k', hk', rfl⟩ := Option.map_eq_some'.mp h
      have := ih (op + 1) cl k' hk'
      simp only [List.length_cons]
      omega
    · by_cases hc2 : c = '}'
      · by_cases hop : op = cl + 1
        · rw [endScan, if_neg hc, if_pos hc2, if_pos hop] at h
          obtain rfl : k = 0 := by simpa using h.symm
          simp
        · rw [endScan, if_neg hc, if_pos hc2, if_neg hop] at h
          obtain ⟨k', hk', rfl⟩ := Option.map_eq_some'.mp h
          have := ih op (cl + 1) k' hk'
          simp only [List.length_cons]
          omega
      · rw [endScan, if_neg hc, if_neg hc2] at h
        obtain ⟨k', hk', rfl⟩ := Option.map_eq_some'.mp h
        have := ih op cl k' hk'
        simp only [List.length_cons]
        omega

lemma chopLoop_braceFree (p : List Char) :
    ∀ (ind op cl : Nat) (st : Int), (∀ c ∈ p, c ≠ '{' ∧ c ≠ '}') →
      chopLoop p ind op cl st = (st, -1) := by
  induction p with
  | nil => intro ind op cl st _; rfl
  | cons c rest ih =>
    intro ind op cl st hfree
    have hc := hfree c (List.mem_cons_self c rest)
    rw [chopLoop, if_neg hc.1, if_neg hc.2]
    exact ih (ind + 1) op cl st (fun d hd => hfree d (List.mem_cons_of_mem _ hd))

lemma chopLoop_skip_free (p : List Char) :
    ∀ (rest : List Char) (ind op cl : Nat) (st : Int),
      (∀ c ∈ p, c ≠ '{' ∧ c ≠ '}') →
      chopLoop (p ++ rest) ind op cl st = chopLoop rest (ind + p.length) op cl st := by
  induction p with
  | nil => intro rest ind op cl st _; simp
  | cons c p' ih =>
    intro rest ind op cl st hfree
    have hc := hfree c (List.mem_cons_self c p')
    rw [List.cons_append, chopLoop, if_neg hc.1, if_neg hc.2,
      ih rest (ind + 1) op cl st (fun d hd => hfree d (List.mem_cons_of_mem _ hd))]
    congr 1
    simp only [List.length_cons]
    omega

lemma noCloseBeforeOpen_decomp (j : List Char) (h : noCloseBeforeOpen j = true) :
    (∀ c ∈ j, c ≠ '{' ∧ c ≠ '}') ∨
    ∃ p q, j = p ++ '{' :: q ∧ ∀ c ∈ p, c ≠ '{' ∧ c ≠ '}' := by
  induction j with
  | nil => left; simp
  | cons c rest ih =>
    by_cases hc2 : c = '}'
    · rw [noCloseBeforeOpen, if_pos hc2] at h
      exact absurd h (by simp)
    · by_cases hc : c = '{'
      · right
        exact ⟨[], rest, by rw [hc]; rfl, by simp⟩
      · rw [noCloseBeforeOpen, if_neg hc2, if_neg hc] at h
        rcases ih h with hfree | ⟨p, q, rfl, hp⟩
        · left
          intro d hd
          rcases List.mem_cons.mp hd with rfl | hd
          · exact ⟨hc, hc2⟩
          · exact hfree d hd
        · right
          refine ⟨c :: p, q, rfl, ?_⟩
          intro d hd
          rcases List.mem_cons.mp hd with rfl | hd
          · exact ⟨hc, hc2⟩
          · exact hp d hd

/-- C3 amended: `chop_json` is idempotent on every string in which no `}`
precedes the first `{` — in particular on every string starting with `{`,
which is the shape of its intended inputs (a decoded payload plus trailing
noise).  A `}` before the first `{` inflates the closing tally and breaks
idempotence even in the presence of a balanced span (see the
counterexample). -/
theorem chop_json_idempotent (j : List Char) (h : noCloseBeforeOpen j = true) :
    SMServerConnection.chop_json (SMServerConnection.chop_json j)
      = SMServerConnection.chop_json j := by
  rcases noCloseBeforeOpen_decomp j h with hfree | ⟨p, q, rfl, hp⟩
  · have h1 : SMServerConnection.chop_json j = [] := by
      unfold SMServerConnection.chop_json
      rw [chopLoop_braceFree j 0 0 0 (-1) hfree]
      rfl
    rw [h1]
    rfl
  · have hscan : chopLoop (p ++ '{' :: q) 0 0 0 (-1)
        = chopLoop ('{' :: q) p.length 0 0 (-1) := by
      have h0 := chopLoop_skip_free p ('{' :: q) 0 0 0 (-1) hp
      simpa using h0
    have hstep : chopLoop ('{' :: q) p.length 0 0 (-1)
        = chopLoop q (p.length + 1) 1 0 ((p.length : Nat) : Int) := by
      simp [chopLoop]
    cases hes : endScan q 1 0 with
    | none =>
      have h1 : SMServerConnection.chop_json (p ++ '{' :: q) = [] := by
        unfold SMServerConnection.chop_json
        rw [hscan, hstep,
          chopLoop_nonneg q (p.length + 1) 1 0 ((p.length : Nat) : Int) (by omega),
          hes]
        show pySlice (p ++ '{' :: q) ((p.length : Nat) : Int) (-1) = []
        unfold pySlice
        rw [if_neg (by omega), if_pos (by omega)]
      rw [h1]
      rfl
    | some k =>
      have hklen : k < q.length := endScan_lt_length q 1 0 k hes
      have h1 : SMServerConnection.chop_json (p ++ '{' :: q)
          = '{' :: q.take (k + 1) := by
        unfold SMServerConnection.chop_json
        rw [hscan, hstep,
          chopLoop_nonneg q (p.length + 1) 1 0 ((p.length : Nat) : Int) (by omega),
          hes]
        show pySlice (p ++ '{' :: q) ((p.length : Nat) : Int)
            ((p.length + 1 + k : Nat) : Int)
          = '{' :: q.take (k + 1)
        unfold pySlice
        rw [if_neg (by omega), if_neg (by omega)]
        simp only [Int.toNat_natCast]
        rw [List.take_append_eq_append_take,
          List.take_of_length_le (show p.length ≤ p.length + 1 + k + 1 by omega)]
        have harith : p.length + 1 + k + 1 - p.length = k + 2 := by omega
        rw [harith, List.take_succ_cons, List.drop_left]
      have h2 : SMServerConnection.chop_json ('{' :: q.take (k + 1))
          = '{' :: q.take (k + 1) := by
        unfold SMServerConnection.chop_json
        have hstep2 : chopLoop ('{' :: q.take (k + 1)) 0 0 0 (-1)
            = chopLoop (q.take (k + 1)) 1 1 0 0 := by
          simp [chopLoop]
        rw [hstep2, chopLoop_nonneg (q.take (k + 1)) 1 1 0 0 (by omega),
          endScan_take q 1 0 k hes]
        show pySlice ('{' :: q.take (k + 1)) 0 ((1 + k : Nat) : Int)
          = '{' :: q.take (k + 1)
        unfold pySlice
        rw [if_neg (by omega), if_neg (by omega)]
        simp only [Int.toNat_natCast, Int.toNat_zero, List.drop_zero]
        rw [List.take_of_length_le]
        simp only [List.length_cons, List.length_take]
        omega
      rw [h1, h2]

/-- Witness for C3 amended: a concrete string with leading and trailing noise
but no `}` before its first `{`. -/
theorem chop_json_idempotent_witness :
    noCloseBeforeOpen ['x', '{', '{', '}', '}', 'y'] = true ∧
    SMServerConnection.chop_json
        (SMServerConnection.chop_json ['x', '{', '{', '}', '}', 'y'])
      = SMServerConnection.chop_json ['x', '{', '{', '}', '}', 'y'] :=
  ⟨by decide, chop_json_idempotent ['x', '{', '{', '}', '}', 'y'] (by decide)⟩
